import Mathlib

/-!
Verification of the UART commander script (`src/scripts/uart_commander.py`).

The development shallowly embeds the two pieces of logic the script owns:

* `str_to_int` — the textual-numeral parser (decimal, `0x` hex, `0b` binary,
  with the sentinel `-1` for recognised failures), including the exact
  semantics of the Python builtins it calls (`str.strip`, `str.lower`,
  `str.isdigit`, `int(s)`, `int(s, 16)`, `int(s, 2)`);
* the integer-to-bytes encode step of `loop_send_uart_input`
  (`(n.bit_length() + 7) // 8`, `or 1`, `int.to_bytes(..., "little")`).

Strings are embedded as `List Char`.  The character-level tables
(`pyIsSpaceChar`, `pyLowerChar`, `pyIsDigitChar`) model the Python builtins
exactly on the ASCII range plus the Latin-1 characters that matter to the
claims (the superscript digits U+00B9, U+00B2, U+00B3, the no-break space
U+00A0 and the next-line character U+0085); other non-ASCII characters are
outside the modelled alphabet and are treated as plain symbols.

A parser result of `none` models an exception that `str_to_int` does not
catch and therefore propagates out of the function (a crash of the script,
since the read loop only catches `KeyboardInterrupt`); `some v` models a
normal return of the value `v`.
-/

namespace UartCmd

/-- Python whitespace as used by `str.strip`, for the modelled alphabet:
tab, LF, VT, FF, CR, FS, GS, RS, US, space, NEL (U+0085) and
no-break space (U+00A0). -/
def pyIsSpaceChar (c : Char) : Bool :=
  c.toNat = 9 || c.toNat = 10 || c.toNat = 11 || c.toNat = 12 ||
  c.toNat = 13 || c.toNat = 28 || c.toNat = 29 || c.toNat = 30 ||
  c.toNat = 31 || c.toNat = 32 || c.toNat = 133 || c.toNat = 160

/-- Python `str.lower` on one character, for the modelled alphabet:
maps A–Z to a–z and leaves every other modelled character unchanged
(the superscript digits and the modelled spaces are fixed by `lower`). -/
def pyLowerChar (c : Char) : Char :=
  if 65 ≤ c.toNat ∧ c.toNat ≤ 90 then Char.ofNat (c.toNat + 32) else c

/-- Python `str.lower` on a string. -/
def pyLower (s : List Char) : List Char := s.map pyLowerChar

/-- Remove the trailing characters satisfying `p`. -/
def dropTrailing (p : Char → Bool) (s : List Char) : List Char :=
  (s.reverse.dropWhile p).reverse

/-- Python `str.strip`: remove leading and trailing whitespace. -/
def pyStrip (s : List Char) : List Char :=
  dropTrailing pyIsSpaceChar (s.dropWhile pyIsSpaceChar)

/-- Python `str.isdigit` on one character, for the modelled alphabet: true on
the ASCII digits 0–9 and on the superscript digits U+00B9 SUPERSCRIPT ONE,
U+00B2 SUPERSCRIPT TWO and U+00B3 SUPERSCRIPT THREE, whose Unicode property
Numeric_Type=Digit makes `str.isdigit` accept them even though they are not
decimal digits (`int` rejects them). -/
def pyIsDigitChar (c : Char) : Bool :=
  (48 ≤ c.toNat && c.toNat ≤ 57) ||
  c.toNat = 185 || c.toNat = 178 || c.toNat = 179

/-- Python `str.isdigit` on a string: non-empty and all characters digits. -/
def pyIsDigitStr (s : List Char) : Bool :=
  !s.isEmpty && s.all pyIsDigitChar

/-- Python `int(s)` applied to a string all of whose characters satisfy
`str.isdigit` (the only way the script reaches this call): it succeeds
with the base-10 value when every character is a decimal digit, and raises
`ValueError` (modelled by `none`) when some character is a digit that is
not a decimal digit, such as a superscript digit. -/
def pyIntDecimal (s : List Char) : Option Nat :=
  if s.all (fun c => 48 ≤ c.toNat && c.toNat ≤ 57) then
    some (s.foldl (fun a c => 10 * a + (c.toNat - 48)) 0)
  else
    none

/-- Hexadecimal digit value, as accepted by Python `int(s, 16)`. -/
def hexDigitVal (c : Char) : Option Nat :=
  if 48 ≤ c.toNat ∧ c.toNat ≤ 57 then some (c.toNat - 48)
  else if 97 ≤ c.toNat ∧ c.toNat ≤ 102 then some (c.toNat - 87)
  else if 65 ≤ c.toNat ∧ c.toNat ≤ 70 then some (c.toNat - 55)
  else none

/-- Binary digit value, as accepted by Python `int(s, 2)`. -/
def binDigitVal (c : Char) : Option Nat :=
  if c.toNat = 48 then some 0 else if c.toNat = 49 then some 1 else none

/-- The digit scanner of Python `int(s, base)` after the `0x`/`0b` base
prefix.  `afterUnd` records that the previous character was an underscore.
PEP 515 allows a single underscore after the base prefix or after a digit,
and it must be followed by a digit; any other character, a doubled
underscore or a trailing underscore raises `ValueError` (`none`). -/
def pyDigits (val : Char → Option Nat) (base : Nat) :
    List Char → Bool → Nat → Option Nat
  | [], afterUnd, acc => if afterUnd then none else some acc
  | c :: cs, afterUnd, acc =>
    match val c with
    | some d => pyDigits val base cs false (base * acc + d)
    | none =>
      if c = '_' && !afterUnd then pyDigits val base cs true acc else none

/-- Python `int("0x" ++ rest, 16)` (resp. `int("0b" ++ rest, 2)`), for a
string that the script has already checked to start with the lowercase base
prefix: the digits after the prefix are scanned by `pyDigits`; an empty
remainder raises `ValueError` (`none`). -/
def pyIntPrefixed (val : Char → Option Nat) (base : Nat)
    (rest : List Char) : Option Nat :=
  match rest with
  | [] => none
  | _ => pyDigits val base rest false 0

/-- The branch logic of `str_to_int` after the `strip().lower()`
normalisation (the Python function body from the `isdigit` test on).
`some v` is a normal return, `none` an uncaught `ValueError`. -/
def str_to_int_core (t : List Char) : Option Int :=
  if pyIsDigitStr t then (pyIntDecimal t).map Int.ofNat
  else if t.length < 3 then some (-1)
  else if ['0', 'x'].isPrefixOf t then
    match pyIntPrefixed hexDigitVal 16 (t.drop 2) with
    | some n => some (Int.ofNat n)
    | none => some (-1)
  else if ['0', 'b'].isPrefixOf t then
    match pyIntPrefixed binDigitVal 2 (t.drop 2) with
    | some n => some (Int.ofNat n)
    | none => some (-1)
  else some (-1)

/-- `str_to_int` from `uart_commander.py`: normalise with
`strip().lower()`, then run the branch logic. -/
def str_to_int (s : List Char) : Option Int :=
  str_to_int_core (pyLower (pyStrip s))

/-- Fuelled halving counter: `bitLenFuel fuel n` counts how many times `n`
must be halved to reach `0`, provided `fuel` bounds that count.  Since a
positive `n` needs at most `n` halvings, `fuel = n` always suffices. -/
def bitLenFuel : Nat → Nat → Nat
  | _, 0 => 0
  | 0, _ + 1 => 0
  | fuel + 1, n + 1 => bitLenFuel fuel ((n + 1) / 2) + 1

/-- Python `int.bit_length` on a natural number: the number of bits needed
to represent the value, `0` for the value `0`. -/
def bit_length (n : Nat) : Nat := bitLenFuel n n

/-- Python `int.bit_length` on an integer (the bit length of the absolute
value). -/
def intBitLength (v : Int) : Nat := bit_length v.natAbs

/-- `data_byte_len` of `loop_send_uart_input`:
`(data_int.bit_length() + 7) // 8`. -/
def data_byte_len (v : Int) : Nat := (intBitLength v + 7) / 8

/-- The length actually passed to `to_bytes`: `data_byte_len or 1`, i.e.
Python replaces a falsy (zero) byte count by `1`. -/
def sendByteLen (v : Int) : Nat :=
  if data_byte_len v = 0 then 1 else data_byte_len v

/-- The little-endian byte expansion: `k` bytes of `n`, least-significant
byte first. -/
def leBytes : Nat → Nat → List Nat
  | 0, _ => []
  | k + 1, n => n % 256 :: leBytes k (n / 256)

/-- Python `int.to_bytes(length, byteorder="little")`: `some` bytes when
`0 ≤ v < 256 ^ length`, otherwise an `OverflowError` (`none`; for a
negative `v` Python raises before anything is written). -/
def to_bytes (length : Nat) (v : Int) : Option (List Nat) :=
  if 0 ≤ v ∧ v < (256 : Int) ^ length then some (leBytes length v.toNat)
  else none

/-- The encode step of the send loop applied to a non-negative integer:
`n.to_bytes((n.bit_length() + 7) // 8 or 1, "little")` (which always
succeeds for non-negative `n`, as proved below). -/
def encode (n : Nat) : List Nat :=
  (to_bytes (sendByteLen (Int.ofNat n)) (Int.ofNat n)).getD []

/-- Little-endian minimal-length interpretation of a byte sequence: the
decode direction used by the round-trip property. -/
def decodeLE (bs : List Nat) : Nat :=
  bs.foldr (fun b acc => b + 256 * acc) 0

/-- The observable outcome of one iteration of the read loop of
`loop_send_uart_input` on one input line. -/
inductive LoopAction
  /-- The line was the exit token: `break` before parsing. -/
  | exit
  /-- `str_to_int` returned the sentinel `-1`: `continue`, nothing sent. -/
  | skip
  /-- `str_to_int` raised an exception that nothing catches. -/
  | crash
  /-- `to_bytes` raised `OverflowError` (negative or oversized value). -/
  | overflow
  /-- The bytes written to the serial device. -/
  | send (bs : List Nat)
  deriving DecidableEq

/-- One iteration of the read loop of `loop_send_uart_input`: normalise
the line with `strip().lower()`, exit on `"x"`, parse, skip on the
sentinel `-1`, otherwise encode and send. -/
def loopStep (line : List Char) : LoopAction :=
  let ds := pyLower (pyStrip line)
  if ds = ['x'] then .exit
  else
    match str_to_int ds with
    | none => .crash
    | some v =>
      if v = -1 then .skip
      else
        match to_bytes (sendByteLen v) v with
        | none => .overflow
        | some bs => .send bs

/-! ### Lemmas about the encode step -/

theorem bitLenFuel_bound : ∀ f n, n ≤ f → n < 2 ^ bitLenFuel f n := by
  intro f
  induction f with
  | zero =>
    intro n hn
    interval_cases n
    simp [bitLenFuel]
  | succ f ih =>
    intro n hn
    match n with
    | 0 => simp [bitLenFuel]
    | m + 1 =>
      have hle : (m + 1) / 2 ≤ f := by omega
      have h := ih ((m + 1) / 2) hle
      have hrec : bitLenFuel (f + 1) (m + 1) = bitLenFuel f ((m + 1) / 2) + 1 := rfl
      rw [hrec, pow_succ]
      omega

theorem bit_length_bound (n : Nat) : n < 2 ^ bit_length n :=
  bitLenFuel_bound n n le_rfl

theorem bit_length_le_mul (n : Nat) : bit_length n ≤ 8 * sendByteLen (Int.ofNat n) := by
  have hb : intBitLength (Int.ofNat n) = bit_length n := by
    simp [intBitLength, Int.natAbs_ofNat]
  unfold sendByteLen data_byte_len
  rw [hb]
  have h := Nat.div_add_mod (bit_length n + 7) 8
  have h2 : (bit_length n + 7) % 8 < 8 := Nat.mod_lt _ (by omega)
  split <;> omega

theorem lt_pow_sendByteLen (n : Nat) : n < 256 ^ sendByteLen (Int.ofNat n) := by
  have h1 : n < 2 ^ bit_length n := bit_length_bound n
  have h2 : 2 ^ bit_length n ≤ 2 ^ (8 * sendByteLen (Int.ofNat n)) :=
    Nat.pow_le_pow_right (by omega) (bit_length_le_mul n)
  have h3 : (2 : Nat) ^ (8 * sendByteLen (Int.ofNat n)) = 256 ^ sendByteLen (Int.ofNat n) := by
    rw [Nat.pow_mul]
  omega

theorem encode_eq_leBytes (n : Nat) :
    encode n = leBytes (sendByteLen (Int.ofNat n)) n := by
  unfold encode to_bytes
  have h : (Int.ofNat n) < (256 : Int) ^ sendByteLen (Int.ofNat n) := by
    have h2 : Int.ofNat n < Int.ofNat (256 ^ sendByteLen (Int.ofNat n)) :=
      Int.ofNat_lt.mpr (lt_pow_sendByteLen n)
    have h3 : (Int.ofNat (256 ^ sendByteLen (Int.ofNat n)) : Int) =
        (256 : Int) ^ sendByteLen (Int.ofNat n) := by
      rw [Int.ofNat_eq_coe]
      push_cast
      ring
    rw [h3] at h2
    exact h2
  rw [if_pos ⟨Int.ofNat_nonneg n, h⟩]
  simp [Int.toNat_ofNat]

theorem leBytes_length : ∀ k n, (leBytes k n).length = k := by
  intro k
  induction k with
  | zero => intro n; rfl
  | succ k ih => intro n; simp [leBytes, ih]

theorem decode_leBytes : ∀ k n, decodeLE (leBytes k n) = n % 256 ^ k := by
  intro k
  induction k with
  | zero => intro n; simp [leBytes, decodeLE]; exact (Nat.mod_one n).symm
  | succ k ih =>
    intro n
    have hstep : decodeLE (n % 256 :: leBytes k (n / 256)) =
        n % 256 + 256 * decodeLE (leBytes k (n / 256)) := rfl
    rw [leBytes, hstep, ih]
    rw [pow_succ, mul_comm (256 ^ k) 256, Nat.mod_mul]

theorem leBytes_eq_map : ∀ k n,
    leBytes k n = (List.range k).map (fun i => n / 256 ^ i % 256) := by
  intro k
  induction k with
  | zero => intro n; rfl
  | succ k ih =>
    intro n
    rw [leBytes, ih (n / 256), List.range_succ_eq_map, List.map_cons, List.map_map]
    simp only [pow_zero, Nat.div_one]
    congr 1
    apply List.map_congr_left
    intro i _
    simp only [Function.comp_apply]
    rw [Nat.div_div_eq_div_mul, ← pow_succ']

theorem sendByteLen_eq_max (n : Nat) :
    sendByteLen (Int.ofNat n) = max 1 ((bit_length n + 7) / 8) := by
  have hb : intBitLength (Int.ofNat n) = bit_length n := by
    simp [intBitLength, Int.natAbs_ofNat]
  unfold sendByteLen data_byte_len
  rw [hb]
  split <;> omega

/-! ### Claim theorems for the encode step -/

/-- C1: for every non-negative integer `n`, interpreting the byte sequence
produced by the encode step as a little-endian, minimal-length number
yields `n` back: `decode (encode n) = n`. -/
theorem decode_encode_roundtrip (n : Nat) : decodeLE (encode n) = n := by
  rw [encode_eq_leBytes, decode_leBytes]
  exact Nat.mod_eq_of_lt (lt_pow_sendByteLen n)

/-- C2: the encode step emits exactly `max 1 (ceil (bit_length n / 8))`
bytes (ceiling division written as `(bit_length n + 7) / 8`), with byte `i`
equal to `n / 256 ^ i % 256`, i.e. least-significant byte first; in
particular `encode 0 = [0x00]`, `encode 255` has length `1` and
`encode 256` has length `2`. -/
theorem encode_emits_minimal_le_bytes (n : Nat) :
    (encode n).length = max 1 ((bit_length n + 7) / 8) ∧
    encode n =
      (List.range (max 1 ((bit_length n + 7) / 8))).map
        (fun i => n / 256 ^ i % 256) ∧
    encode 0 = [0] ∧ (encode 255).length = 1 ∧ (encode 256).length = 2 := by
  refine ⟨?_, ?_, by decide, by decide, by decide⟩
  · rw [encode_eq_leBytes, leBytes_length, sendByteLen_eq_max]
  · rw [encode_eq_leBytes, leBytes_eq_map, sendByteLen_eq_max]

/-! ### Lemmas about the string normalisation -/

theorem toNat_ofNat_valid {n : Nat} (h : n.isValidChar) :
    (Char.ofNat n).toNat = n := by
  unfold Char.ofNat
  rw [dif_pos h]
  rfl

theorem pyLowerChar_toNat_of_upper {c : Char}
    (h : 65 ≤ c.toNat ∧ c.toNat ≤ 90) :
    (pyLowerChar c).toNat = c.toNat + 32 := by
  unfold pyLowerChar
  rw [if_pos h]
  exact toNat_ofNat_valid (Or.inl (by omega))

theorem pyLowerChar_eq_self {c : Char}
    (h : ¬(65 ≤ c.toNat ∧ c.toNat ≤ 90)) : pyLowerChar c = c := by
  unfold pyLowerChar
  rw [if_neg h]

theorem pyLowerChar_idem (c : Char) :
    pyLowerChar (pyLowerChar c) = pyLowerChar c := by
  by_cases h : 65 ≤ c.toNat ∧ c.toNat ≤ 90
  · exact pyLowerChar_eq_self (by have := pyLowerChar_toNat_of_upper h; omega)
  · rw [pyLowerChar_eq_self h]
    exact pyLowerChar_eq_self h

theorem pyIsSpace_pyLowerChar (c : Char) :
    pyIsSpaceChar (pyLowerChar c) = pyIsSpaceChar c := by
  by_cases h : 65 ≤ c.toNat ∧ c.toNat ≤ 90
  · have ht := pyLowerChar_toNat_of_upper h
    have h1 : pyIsSpaceChar (pyLowerChar c) = false := by
      simp only [pyIsSpaceChar, ht, Bool.or_eq_false_iff, decide_eq_false_iff_not]
      omega
    have h2 : pyIsSpaceChar c = false := by
      simp only [pyIsSpaceChar, Bool.or_eq_false_iff, decide_eq_false_iff_not]
      omega
    rw [h1, h2]
  · rw [pyLowerChar_eq_self h]

theorem pyLower_idem (s : List Char) : pyLower (pyLower s) = pyLower s := by
  unfold pyLower
  rw [List.map_map]
  apply List.map_congr_left
  intro c _
  exact pyLowerChar_idem c

theorem dropWhile_idem (p : Char → Bool) (l : List Char) :
    List.dropWhile p (List.dropWhile p l) = List.dropWhile p l := by
  induction l with
  | nil => rfl
  | cons c cs ih =>
    rw [List.dropWhile_cons]
    by_cases h : p c = true
    · rw [if_pos h]
      exact ih
    · rw [if_neg h, List.dropWhile_cons, if_neg h]

theorem dropTrailing_prefix_of (p : Char → Bool) (l : List Char) :
    dropTrailing p l <+: l := by
  unfold dropTrailing
  have h := List.reverse_prefix.mpr (List.dropWhile_suffix (l := l.reverse) p)
  rwa [List.reverse_reverse] at h

theorem dropWhile_eq_self_of_isPrefix (p : Char → Bool) {w u : List Char}
    (hw : w <+: u) (hu : List.dropWhile p u = u) :
    List.dropWhile p w = w := by
  cases w with
  | nil => rfl
  | cons c cs =>
    cases u with
    | nil =>
      obtain ⟨t, ht⟩ := hw
      simp at ht
    | cons d ds =>
      obtain ⟨t, ht⟩ := hw
      have hcd : c = d := by
        have := congrArg (fun l => l.head?) ht
        simpa using this
      have hpd : p d = false := by
        rw [List.dropWhile_cons] at hu
        by_cases hb : p d = true
        · rw [if_pos hb] at hu
          have hlen := (List.dropWhile_sublist (l := ds) p).length_le
          have := congrArg List.length hu
          simp at this
          omega
        · exact Bool.eq_false_iff.mpr hb
      rw [List.dropWhile_cons, hcd, hpd]
      rfl

theorem dropWhile_pyStrip (s : List Char) :
    List.dropWhile pyIsSpaceChar (pyStrip s) = pyStrip s := by
  unfold pyStrip
  exact dropWhile_eq_self_of_isPrefix _ (dropTrailing_prefix_of _ _)
    (dropWhile_idem _ _)

theorem dropTrailing_idem (p : Char → Bool) (l : List Char) :
    dropTrailing p (dropTrailing p l) = dropTrailing p l := by
  unfold dropTrailing
  rw [List.reverse_reverse, dropWhile_idem]

theorem pyStrip_idem (s : List Char) : pyStrip (pyStrip s) = pyStrip s := by
  have h1 : pyStrip (pyStrip s) =
      dropTrailing pyIsSpaceChar (List.dropWhile pyIsSpaceChar (pyStrip s)) :=
    rfl
  rw [h1, dropWhile_pyStrip]
  show dropTrailing _ (dropTrailing _ (List.dropWhile _ s)) = _
  rw [dropTrailing_idem]
  rfl

theorem pyStrip_pyLower_comm (s : List Char) :
    pyStrip (pyLower s) = pyLower (pyStrip s) := by
  have hpf : pyIsSpaceChar ∘ pyLowerChar = pyIsSpaceChar :=
    funext pyIsSpace_pyLowerChar
  show dropTrailing _ (List.dropWhile _ (List.map _ s)) = _
  rw [List.dropWhile_map, hpf]
  unfold dropTrailing
  rw [← List.map_reverse, List.dropWhile_map, hpf, ← List.map_reverse]
  rfl

theorem norm_idem (s : List Char) :
    pyLower (pyStrip (pyLower (pyStrip s))) = pyLower (pyStrip s) := by
  rw [pyStrip_pyLower_comm, pyLower_idem, pyStrip_idem]

/-! ### Lemmas about the parser and the loop -/

theorem str_to_int_range (s : List Char) (v : Int)
    (h : str_to_int s = some v) : v = -1 ∨ 0 ≤ v := by
  unfold str_to_int str_to_int_core at h
  split at h
  · cases hp : pyIntDecimal (pyLower (pyStrip s)) with
    | none => rw [hp] at h; cases h
    | some m =>
      rw [hp] at h
      simp only [Option.map_some'] at h
      injection h with h
      right
      rw [← h]
      exact Int.ofNat_nonneg m
  · split at h
    · injection h with h; left; omega
    · split at h
      · split at h
        · injection h with h; right; rw [← h]; exact Int.ofNat_nonneg _
        · injection h with h; left; omega
      · split at h
        · split at h
          · injection h with h; right; rw [← h]; exact Int.ofNat_nonneg _
          · injection h with h; left; omega
        · injection h with h; left; omega

theorem to_bytes_of_nonneg (v : Int) (hv : 0 ≤ v) :
    to_bytes (sendByteLen v) v = some (leBytes (sendByteLen v) v.toNat) := by
  have hn : (v.toNat : Int) = v := Int.toNat_of_nonneg hv
  have hofn : Int.ofNat v.toNat = v := by rw [Int.ofNat_eq_coe, hn]
  have h1 := lt_pow_sendByteLen v.toNat
  rw [hofn] at h1
  have hlt : v < (256 : Int) ^ sendByteLen v := by
    calc v = (v.toNat : Int) := hn.symm
      _ < ((256 ^ sendByteLen v : Nat) : Int) := by exact_mod_cast h1
      _ = (256 : Int) ^ sendByteLen v := by push_cast; ring
  unfold to_bytes
  rw [if_pos ⟨hv, hlt⟩]

/-! ### Claim theorems for the parser and the loop -/

/-- C3 (refuting the no-crash claim): on the input line consisting of the
single character U+00B2 SUPERSCRIPT TWO, a malformed numeral, `str_to_int`
does not return its failure signal: `str.isdigit` accepts the character, so
the code calls `int` on it, which raises `ValueError`; nothing catches the
exception (the loop only catches `KeyboardInterrupt`), so the program
crashes instead of logging the failure and continuing, contradicting the
docstring of `str_to_int` and the no-crash specification. -/
theorem str_to_int_crash_superscript_two :
    str_to_int ['²'] = none ∧ loopStep ['²'] = LoopAction.crash := by
  constructor
  · decide
  · decide

/-- C5 (refuting the fall-through claim): rule 1 does hold for ASCII-digit
tokens (for example `parse "123" = 123`), but the token consisting of the
single character U+00B3 SUPERSCRIPT THREE is not made of ASCII decimal
digits and has no `0x`/`0b` form, so the claim says it fails as
unrecognised; instead `str.isdigit` accepts it, `int` raises `ValueError`,
and the uncaught exception crashes the program. -/
theorem str_to_int_crash_superscript_three :
    str_to_int ['³'] = none ∧ str_to_int ['1', '2', '3'] = some 123 := by
  constructor
  · decide
  · decide

/-- C6 (refuting the short-token claim): `parse ""` and `parse "0x"` do
fail with the sentinel, but the token consisting of the single character
U+00B9 SUPERSCRIPT ONE is not composed of decimal digits and has length
`1 < 3`, so the claim says it fails; instead `str.isdigit` accepts it
before the length test is reached, `int` raises `ValueError`, and the
uncaught exception crashes the program. -/
theorem str_to_int_crash_superscript_one :
    str_to_int ['¹'] = none ∧ str_to_int [] = some (-1) ∧
      str_to_int ['0', 'x'] = some (-1) := by
  refine ⟨by decide, by decide, by decide⟩

/-- C7: whenever `str_to_int` returns, the returned value is either the
uniform failure sentinel `-1` or a non-negative integer, and the sentinel
is distinguishable from a legitimately parsed zero (`parse "0" = 0` and
`-1 ≠ 0`). -/
theorem parse_result_sentinel_or_nonneg :
    (∀ s v, str_to_int s = some v → v = -1 ∨ 0 ≤ v) ∧
      str_to_int ['0'] = some 0 ∧ (-1 : Int) ≠ 0 := by
  refine ⟨str_to_int_range, by decide, by decide⟩

/-- C7 witness: instantiating the range property at the unrecognised token
`"abc"`, whose parse returns the sentinel. -/
theorem parse_result_sentinel_or_nonneg_witness :
    (-1 : Int) = -1 ∨ (0 : Int) ≤ -1 :=
  parse_result_sentinel_or_nonneg.1 ['a', 'b', 'c'] (-1) (by decide)

/-- C8: a line whose `strip().lower()` normalisation is the token `"x"`
makes the read loop `break` before the parse step is reached: the loop
iteration results in the exit action, and no bytes are produced. -/
theorem exit_token_terminates (line : List Char)
    (h : pyLower (pyStrip line) = ['x']) :
    loopStep line = LoopAction.exit := by
  unfold loopStep
  simp only [h]
  rfl

/-- C8 witness: the line `" X "` (upper case, surrounded by whitespace)
exits the loop. -/
theorem exit_token_terminates_witness :
    loopStep [' ', 'X', ' '] = LoopAction.exit :=
  exit_token_terminates [' ', 'X', ' '] (by decide)

/-- C10: the `to_bytes` conversion in the send loop is only ever reached
with a non-negative integer — a failed parse that returns yields exactly
the sentinel `-1`, which the `if data_int == -1` check filters out, and a
successful parse is never negative — so the conversion never raises
`OverflowError` for a negative value: no loop iteration results in the
overflow action. -/
theorem conversion_rejection_unreachable (line : List Char) :
    loopStep line ≠ LoopAction.overflow := by
  unfold loopStep
  by_cases hx : pyLower (pyStrip line) = ['x']
  · simp [hx]
  · rw [if_neg hx]
    rcases hp : str_to_int (pyLower (pyStrip line)) with _ | v
    · simp
    · simp only []
      by_cases hv : v = -1
      · simp [hv]
      · rw [if_neg hv]
        rcases str_to_int_range _ v hp with h1 | h1
        · exact absurd h1 hv
        · rw [to_bytes_of_nonneg v h1]
          simp

/-- C10 witness: the iteration on the line `"256"` does not hit the
overflow action. -/
theorem conversion_rejection_unreachable_witness :
    loopStep ['2', '5', '6'] ≠ LoopAction.overflow :=
  conversion_rejection_unreachable ['2', '5', '6']

/-- C9: parsing is invariant under the trim-and-lowercase normalisation,
because `str_to_int` itself begins with `strip().lower()` and that
normalisation is idempotent; in particular
`parse "0X1a" = parse "0x1A"`. -/
theorem parse_invariant_under_normalisation :
    (∀ s, str_to_int s = str_to_int (pyLower (pyStrip s))) ∧
      str_to_int ['0', 'X', '1', 'a'] = str_to_int ['0', 'x', '1', 'A'] := by
  constructor
  · intro s
    show str_to_int_core _ = str_to_int_core _
    rw [norm_idem]
  · decide

/-! ### The amended hex/binary rule (claim C4)

The spec says the remainder after a `0x`/`0b` prefix must consist of
digits of the base only.  Python `int(s, base)` additionally accepts
underscores (PEP 515), so the code accepts for example `0x1_a`.  The
definitions below state the amended side condition in the words of the
amended claim and are related to the embedded scanner `pyDigits`. -/

/-- `c` is a digit of the base described by `val`. -/
def isDigitFor (val : Char → Option Nat) (c : Char) : Bool := (val c).isSome

/-- Digit value of `c`, with default `0` for non-digits. -/
def digitValD (val : Char → Option Nat) (c : Char) : Nat := (val c).getD 0

/-- The number denoted by the remainder with its underscores removed,
read most-significant digit first in the given base. -/
def baseValue (val : Char → Option Nat) (base : Nat) (ds : List Char) : Nat :=
  (ds.filter (fun c => c ≠ '_')).foldl (fun a c => base * a + digitValD val c) 0

/-- The remainder is well placed: every character is a digit of the base
or an underscore, no underscore is followed by another underscore, and no
underscore ends the string.  (A leading underscore is allowed because in
the parsed string it immediately follows the `0x`/`0b` base prefix.) -/
def wellPlaced (val : Char → Option Nat) : List Char → Bool
  | [] => true
  | c :: cs =>
    if isDigitFor val c then wellPlaced val cs
    else if c = '_' then
      (match cs with
       | c2 :: _ => isDigitFor val c2
       | [] => false) && wellPlaced val cs
    else false

theorem pyDigits_of_wellPlaced (val : Char → Option Nat) (base : Nat)
    (hund : val '_' = none) :
    ∀ n rest, rest.length ≤ n → wellPlaced val rest = true → ∀ acc,
      pyDigits val base rest false acc =
        some ((rest.filter (fun c => c ≠ '_')).foldl
          (fun a c => base * a + digitValD val c) acc) := by
  intro n
  induction n with
  | zero =>
    intro rest hlen _ acc
    have hnil : rest = [] := List.eq_nil_of_length_eq_zero (by omega)
    subst hnil
    rfl
  | succ n ih =>
    intro rest hlen hwp acc
    cases rest with
    | nil => rfl
    | cons c cs =>
      by_cases hd : isDigitFor val c = true
      · obtain ⟨d, hval⟩ := Option.isSome_iff_exists.mp hd
        have hwp2 : wellPlaced val cs = true := by
          unfold wellPlaced at hwp
          rwa [if_pos hd] at hwp
        have hcnd : c ≠ '_' := fun hc => by
          rw [hc, hund] at hval
          cases hval
        have hfil : (c :: cs).filter (fun x => x ≠ '_') =
            c :: cs.filter (fun x => x ≠ '_') := by
          simp [List.filter_cons, hcnd]
        simp only [pyDigits, hval, hfil, List.foldl_cons]
        have hdv : digitValD val c = d := by simp [digitValD, hval]
        rw [← hdv] at *
        exact ih cs (by simpa using Nat.le_of_succ_le_succ hlen) hwp2 _
      · have hcu : c = '_' := by
          unfold wellPlaced at hwp
          rw [if_neg hd] at hwp
          by_contra hne
          rw [if_neg hne] at hwp
          cases hwp
        subst hcu
        unfold wellPlaced at hwp
        rw [if_neg hd, if_pos rfl] at hwp
        cases cs with
        | nil => simp at hwp
        | cons c2 cs2 =>
          have hparts := Bool.and_eq_true_iff.mp hwp
          have hd2 : isDigitFor val c2 = true := hparts.1
          obtain ⟨d2, hval2⟩ := Option.isSome_iff_exists.mp hd2
          have hwp3 : wellPlaced val cs2 = true := by
            have := hparts.2
            unfold wellPlaced at this
            rwa [if_pos hd2] at this
          have hc2nd : c2 ≠ '_' := fun hc => by
            rw [hc, hund] at hval2
            cases hval2
          have hfil : ('_' :: c2 :: cs2).filter (fun x => x ≠ '_') =
              c2 :: cs2.filter (fun x => x ≠ '_') := by
            simp [List.filter_cons, hc2nd]
          simp only [pyDigits, hund, hval2, if_pos, hfil, List.foldl_cons]
          have hdv : digitValD val c2 = d2 := by simp [digitValD, hval2]
          rw [← hdv] at *
          exact ih cs2 (by simp at hlen ⊢; omega) hwp3 _

theorem pyDigits_none_of_bad (val : Char → Option Nat) (base : Nat) :
    ∀ rest flag acc c0, c0 ∈ rest → val c0 = none → c0 ≠ '_' →
      pyDigits val base rest flag acc = none := by
  intro rest
  induction rest with
  | nil =>
    intro flag acc c0 hmem
    cases hmem
  | cons c cs ih =>
    intro flag acc c0 hmem hv hne
    rcases List.mem_cons.mp hmem with rfl | hmem2
    · simp [pyDigits, hv, hne]
    · cases hvc : val c with
      | some d =>
        simp only [pyDigits, hvc]
        exact ih false _ c0 hmem2 hv hne
      | none =>
        simp only [pyDigits, hvc]
        by_cases hcf : (c = '_' && !flag) = true
        · rw [if_pos hcf]
          exact ih true _ c0 hmem2 hv hne
        · rw [if_neg hcf]

theorem str_to_int_token {t : List Char} (htok : pyLower (pyStrip t) = t) :
    str_to_int t = str_to_int_core t := by
  unfold str_to_int
  rw [htok]

theorem core_hex_branch (rest : List Char) (hne : rest ≠ []) :
    str_to_int_core ('0' :: 'x' :: rest) =
      match pyIntPrefixed hexDigitVal 16 rest with
      | some n => some (Int.ofNat n)
      | none => some (-1) := by
  have h1 : ¬(pyIsDigitStr ('0' :: 'x' :: rest) = true) := by
    simp [pyIsDigitStr, pyIsDigitChar]
  have h2 : ¬(('0' :: 'x' :: rest).length < 3) := by
    have := List.length_pos.mpr hne
    simp only [List.length_cons]
    omega
  have h3 : ['0', 'x'].isPrefixOf ('0' :: 'x' :: rest) = true := by
    simp [List.isPrefixOf]
  unfold str_to_int_core
  rw [if_neg h1, if_neg h2, if_pos h3]
  rfl

theorem core_bin_branch (rest : List Char) (hne : rest ≠ []) :
    str_to_int_core ('0' :: 'b' :: rest) =
      match pyIntPrefixed binDigitVal 2 rest with
      | some n => some (Int.ofNat n)
      | none => some (-1) := by
  have h1 : ¬(pyIsDigitStr ('0' :: 'b' :: rest) = true) := by
    simp [pyIsDigitStr, pyIsDigitChar]
  have h2 : ¬(('0' :: 'b' :: rest).length < 3) := by
    have := List.length_pos.mpr hne
    simp only [List.length_cons]
    omega
  have h3 : ¬(['0', 'x'].isPrefixOf ('0' :: 'b' :: rest) = true) := by
    simp [List.isPrefixOf]
  have h4 : ['0', 'b'].isPrefixOf ('0' :: 'b' :: rest) = true := by
    simp [List.isPrefixOf]
  unfold str_to_int_core
  rw [if_neg h1, if_neg h2, if_neg h3, if_pos h4]
  rfl

theorem pyIntPrefixed_cons (val : Char → Option Nat) (base : Nat)
    (r : Char) (rs : List Char) :
    pyIntPrefixed val base (r :: rs) = pyDigits val base (r :: rs) false 0 :=
  rfl

/-- C4 counterexample: the token `"0x1_a"` has the remaining character
`_`, which is not a hexadecimal digit, so the claim as stated says the
parse fails; the code instead returns `26`, because Python `int(s, 16)`
accepts underscores between digits. -/
theorem hex_underscore_counterexample :
    str_to_int ['0', 'x', '1', '_', 'a'] = some 26 ∧
      hexDigitVal '_' = none := by
  constructor
  · decide
  · decide

/-- C4 amended: for every token of length at least 3 starting with `0x`
(resp. `0b`), the parse returns the base-16 (resp. base-2) value of the
remainder with its underscores removed, provided every remaining character
is a digit of the base or a well-placed underscore (each underscore
follows the prefix or a digit and is followed by a digit); and the parse
fails whenever some remaining character is neither a digit of the base
nor an underscore. -/
theorem parse_prefixed_tokens (rest : List Char) :
    (pyLower (pyStrip ('0' :: 'x' :: rest)) = '0' :: 'x' :: rest →
      rest ≠ [] →
      wellPlaced hexDigitVal rest = true →
      str_to_int ('0' :: 'x' :: rest) =
        some (Int.ofNat (baseValue hexDigitVal 16 rest))) ∧
    (∀ c, pyLower (pyStrip ('0' :: 'x' :: rest)) = '0' :: 'x' :: rest →
      c ∈ rest → hexDigitVal c = none → c ≠ '_' →
      str_to_int ('0' :: 'x' :: rest) = some (-1)) ∧
    (pyLower (pyStrip ('0' :: 'b' :: rest)) = '0' :: 'b' :: rest →
      rest ≠ [] →
      wellPlaced binDigitVal rest = true →
      str_to_int ('0' :: 'b' :: rest) =
        some (Int.ofNat (baseValue binDigitVal 2 rest))) ∧
    (∀ c, pyLower (pyStrip ('0' :: 'b' :: rest)) = '0' :: 'b' :: rest →
      c ∈ rest → binDigitVal c = none → c ≠ '_' →
      str_to_int ('0' :: 'b' :: rest) = some (-1)) := by
  refine ⟨?_, ?_, ?_, ?_⟩
  · intro htok hne hwp
    rw [str_to_int_token htok, core_hex_branch rest hne]
    cases rest with
    | nil => exact absurd rfl hne
    | cons r rs =>
      rw [pyIntPrefixed_cons,
        pyDigits_of_wellPlaced hexDigitVal 16 (by decide) (r :: rs).length
          (r :: rs) le_rfl hwp 0]
      rfl
  · intro c htok hmem hv hne
    have hrne : rest ≠ [] := List.ne_nil_of_mem hmem
    rw [str_to_int_token htok, core_hex_branch rest hrne]
    cases rest with
    | nil => exact absurd rfl hrne
    | cons r rs =>
      rw [pyIntPrefixed_cons, pyDigits_none_of_bad hexDigitVal 16 (r :: rs)
        false 0 c hmem hv hne]
  · intro htok hne hwp
    rw [str_to_int_token htok, core_bin_branch rest hne]
    cases rest with
    | nil => exact absurd rfl hne
    | cons r rs =>
      rw [pyIntPrefixed_cons,
        pyDigits_of_wellPlaced binDigitVal 2 (by decide) (r :: rs).length
          (r :: rs) le_rfl hwp 0]
      rfl
  · intro c htok hmem hv hne
    have hrne : rest ≠ [] := List.ne_nil_of_mem hmem
    rw [str_to_int_token htok, core_bin_branch rest hrne]
    cases rest with
    | nil => exact absurd rfl hrne
    | cons r rs =>
      rw [pyIntPrefixed_cons, pyDigits_none_of_bad binDigitVal 2 (r :: rs)
        false 0 c hmem hv hne]

/-- C4 witness: the amended rule evaluated on the tokens `"0x1_a"` (hex
with a well-placed underscore), `"0xz"` (bad hex digit), `"0b1_0"`
(binary with an underscore) and `"0b2"` (bad binary digit). -/
theorem parse_prefixed_tokens_witness :
    str_to_int ['0', 'x', '1', '_', 'a'] = some 26 ∧
      str_to_int ['0', 'x', 'z'] = some (-1) ∧
      str_to_int ['0', 'b', '1', '_', '0'] = some 2 ∧
      str_to_int ['0', 'b', '2'] = some (-1) := by
  refine ⟨?_, ?_, ?_, ?_⟩
  · exact ((parse_prefixed_tokens ['1', '_', 'a']).1 (by decide) (by decide)
      (by decide)).trans (by decide)
  · exact (parse_prefixed_tokens ['z']).2.1 'z' (by decide) (by decide)
      (by decide) (by decide)
  · exact ((parse_prefixed_tokens ['1', '_', '0']).2.2.1 (by decide)
      (by decide) (by decide)).trans (by decide)
  · exact (parse_prefixed_tokens ['2']).2.2.2 '2' (by decide) (by decide)
      (by decide) (by decide)

end UartCmd
